import Mathlib

/-!
Verification of the agent orchestration core of DevOps-Investigator-Ultra.

Shallow embedding of the TypeScript sources:
  * `src/agent/...` (tool-executor.ts, azure-openai-client.ts, mcp-client.ts,
    local-tools.ts) and the agent-loop module (`src/unnamed/part_005`).

Conventions of the embedding:
  * JS strings are modelled by `String`; `str.length` by `String.length`
    (identical on the ASCII data used in all concrete inputs).
  * `x ?? y` (nullish coalescing) is `Option.getD`; JS truthiness of an
    optional string (`if (x)`) is `optTruthy` below (`null`/`""` are falsy).
  * Thrown JS exceptions are modelled with `Except JsError`; a `try/catch`
    is a `match` on the `Except` value.
  * `Math.floor (m * 0.6)` is modelled as `m * 6 / 10` (equal for the
    budget sizes the program uses).
-/

/-- JS truthiness of `string | null | undefined`: `null`, `undefined` and
`""` are falsy, every other string is truthy. -/
def optTruthy : Option String → Bool
  | some s => !decide (s = "")
  | none => false

/-- `pat` occurs contiguously in the character list. -/
def occursInChars (pat : List Char) : List Char → Bool
  | [] => pat.isEmpty
  | c :: rest => pat.isPrefixOf (c :: rest) || occursInChars pat rest

/-- `String.prototype.includes`: `pat` occurs contiguously in `s`.
Stated on the character lists so that it evaluates by structural
recursion. -/
def jsIncludes (s pat : String) : Bool :=
  occursInChars pat.data s.data

/-- `String.prototype.startsWith`, stated on the character lists so that it
evaluates by structural recursion. -/
def jsStartsWith (s pre : String) : Bool :=
  pre.data.isPrefixOf s.data

deriving instance DecidableEq for Except

/-- A thrown JS error as observed by the agent loop: the optional `name`
and `message` properties read by `isAbortError` / `isContextLengthError`. -/
structure JsError where
  name : Option String := none
  message : Option String := none
deriving DecidableEq, Repr

/-- The `function` payload of an OpenAI tool call
(azure-openai-client.ts, `ToolCall.function`). -/
structure FunctionCall where
  name : String
  arguments : String
deriving DecidableEq, Repr

/-- azure-openai-client.ts `ToolCall` (the `type: "function"` tag is
constant and omitted). -/
structure ToolCall where
  id : String
  function : FunctionCall
deriving DecidableEq, Repr

/-- Message roles of azure-openai-client.ts `ChatMessage.role`. -/
inductive Role where
  | system
  | user
  | assistant
  | tool
deriving DecidableEq, Repr

/-- The role string used in template literals such as
`` `${message.role} message` ``. -/
def Role.asString : Role → String
  | .system => "system"
  | .user => "user"
  | .assistant => "assistant"
  | .tool => "tool"

/-- azure-openai-client.ts `ChatMessage`: `content : string | null`,
optional `tool_calls`, optional `tool_call_id`. -/
structure ChatMessage where
  role : Role
  content : Option String
  tool_calls : Option (List ToolCall) := none
  tool_call_id : Option String := none
deriving DecidableEq, Repr

/-- azure-openai-client.ts `ChatCompletionResponse.finishReason`. -/
inductive FinishReason where
  | stop
  | tool_calls
  | length
  | content_filter
deriving DecidableEq, Repr

/-- azure-openai-client.ts `ChatCompletionResponse`. -/
structure ChatCompletionResponse where
  content : Option String
  toolCalls : List ToolCall
  finishReason : FinishReason
deriving DecidableEq, Repr

/-- part_005 `AgentLoop.boundContent`: clamp `content` to `maxChars`
characters keeping the first 60% and the last 40% of the allowance,
joined by a marker line recording the original and clamped lengths. -/
def boundContent (content : String) (maxChars : Nat) (label : String) : String :=
  if content.length ≤ maxChars then content
  else
    let headLen := maxChars * 6 / 10
    let tailLen := maxChars - headLen
    let hd := content.take headLen
    let tl := if 0 < tailLen then content.drop (content.length - tailLen) else ""
    hd ++ "\n\n[" ++ label ++ " truncated from " ++ Nat.repr content.length
       ++ " to " ++ Nat.repr maxChars ++ " chars]\n\n" ++ tl

/-- The resolved `AgentLoopOptions` budget fields of part_005 (after the
constructor applied defaults, so every field is a definite number). -/
structure AgentLoopOptions where
  maxTurns : Nat := 30
  maxContextChars : Nat := 120000
  maxToolResultChars : Nat := 12000
  maxAssistantMessageChars : Nat := 20000
  maxToolCallArgsChars : Nat := 4000
  systemPrompt : String := ""
deriving DecidableEq, Repr

/-- part_005 `AgentLoop.contentLength`: characters of `content` (when a
string) plus, for each tool call, name and argument lengths, plus a flat
32-character overhead. -/
def contentLength (message : ChatMessage) : Nat :=
  (match message.content with
   | some s => s.length
   | none => 0)
  + (match message.tool_calls with
     | some calls => (calls.map (fun c => c.function.name.length + c.function.arguments.length)).sum
     | none => 0)
  + 32

/-- part_005 `AgentLoop.totalContextChars`. -/
def totalContextChars (messages : List ChatMessage) : Nat :=
  (messages.map contentLength).sum

/-- part_005 `AgentLoop.boundToolCalls`: clamp each call's argument text to
`maxToolCallArgsChars`. -/
def boundToolCalls (opts : AgentLoopOptions) (toolCalls : List ToolCall) : List ToolCall :=
  toolCalls.map fun call =>
    { call with
      function :=
        { call.function with
          arguments :=
            boundContent call.function.arguments opts.maxToolCallArgsChars
              ("tool call args (" ++ call.function.name ++ ")") } }

/-- Per-message body of part_005 `AgentLoop.shrinkMessagesInPlace`: clamp
string content by role (system content is left untouched), the initial user
message (index 1) getting its own ceiling, and clamp tool-call arguments. -/
def shrinkMessage (aggressive : Bool) (opts : AgentLoopOptions) (index : Nat)
    (message : ChatMessage) : ChatMessage :=
  let toolLimit := if aggressive then min opts.maxToolResultChars 6000 else opts.maxToolResultChars
  let assistantLimit :=
    if aggressive then min opts.maxAssistantMessageChars 8000 else opts.maxAssistantMessageChars
  let userLimit := if aggressive then 4000 else 8000
  let initialUserLimit := if aggressive then 6000 else 12000
  let content :=
    match message.content with
    | some s =>
      match message.role with
      | .tool => some (boundContent s toolLimit "tool message")
      | .assistant => some (boundContent s assistantLimit "assistant message")
      | .user =>
        some (boundContent s (if index = 1 then initialUserLimit else userLimit) "user message")
      | .system => some s
    | none => none
  let toolCalls :=
    match message.tool_calls with
    | some calls => some (boundToolCalls opts calls)
    | none => none
  { message with content := content, tool_calls := toolCalls }

/-- The indexed map underlying `shrinkMessagesInPlace`
(`this.messages.map((message, index) => ...)`), with the running index
made explicit. -/
def shrinkMessagesFrom (aggressive : Bool) (opts : AgentLoopOptions) :
    Nat → List ChatMessage → List ChatMessage
  | _, [] => []
  | i, m :: rest => shrinkMessage aggressive opts i m :: shrinkMessagesFrom aggressive opts (i + 1) rest

/-- part_005 `AgentLoop.shrinkMessagesInPlace`. -/
def shrinkMessages (aggressive : Bool) (opts : AgentLoopOptions)
    (messages : List ChatMessage) : List ChatMessage :=
  shrinkMessagesFrom aggressive opts 0 messages

/-- The `while (total > max && length > 2) this.messages.splice(1, 1)` loop
of part_005 `AgentLoop.enforceContextBudget`.  `splice(1, 1)` deletes the
element at index 1.  The loop removes one element per iteration, so a fuel
of the list length is enough for the loop to run to completion. -/
def pruneLoop (opts : AgentLoopOptions) : Nat → List ChatMessage → List ChatMessage
  | 0, messages => messages
  | fuel + 1, messages =>
    match messages with
    | m0 :: m1 :: rest =>
      if totalContextChars (m0 :: m1 :: rest) > opts.maxContextChars
          ∧ (m0 :: m1 :: rest).length > 2 then
        pruneLoop opts fuel (m0 :: rest)
      else
        m0 :: m1 :: rest
    | other => other

/-- part_005 `AgentLoop.enforceContextBudget`: shrink, early-return when at
most two messages remain, prune at index 1 while over budget, then one
aggressive shrink if still over budget. -/
def enforceContextBudget (opts : AgentLoopOptions) (messages : List ChatMessage) :
    List ChatMessage :=
  let s := shrinkMessages false opts messages
  if s.length ≤ 2 then s
  else
    let p := pruneLoop opts s.length s
    if totalContextChars p > opts.maxContextChars then shrinkMessages true opts p else p

/-- part_005 `AgentLoop.compactConversationAggressively`: keep the system
message plus the last 8 messages (string contents re-clamped to 4000
characters), then aggressive shrink and a normal budget pass. -/
def compactConversationAggressively (opts : AgentLoopOptions)
    (messages : List ChatMessage) : List ChatMessage :=
  if messages.length ≤ 2 then messages
  else
    match messages with
    | [] => []
    | system :: _ =>
      let tail := (messages.drop (messages.length - 8)).map fun message =>
        match message.content with
        | some s =>
          { message with
            content := some (boundContent s 4000 (message.role.asString ++ " message")) }
        | none => message
      enforceContextBudget opts (shrinkMessages true opts (system :: tail))

lemma shrinkMessage_role (aggressive : Bool) (opts : AgentLoopOptions) (i : Nat)
    (m : ChatMessage) : (shrinkMessage aggressive opts i m).role = m.role := rfl

lemma shrinkMessagesFrom_map_role (aggressive : Bool) (opts : AgentLoopOptions) :
    ∀ (i : Nat) (messages : List ChatMessage),
      (shrinkMessagesFrom aggressive opts i messages).map (fun m => m.role)
        = messages.map (fun m => m.role)
  | _, [] => rfl
  | i, m :: rest => by
    simp [shrinkMessagesFrom, shrinkMessage_role,
      shrinkMessagesFrom_map_role aggressive opts (i + 1) rest]

lemma shrinkMessagesFrom_length (aggressive : Bool) (opts : AgentLoopOptions) :
    ∀ (i : Nat) (messages : List ChatMessage),
      (shrinkMessagesFrom aggressive opts i messages).length = messages.length
  | _, [] => rfl
  | i, m :: rest => by
    simp [shrinkMessagesFrom, shrinkMessagesFrom_length aggressive opts (i + 1) rest]

lemma shrinkMessages_map_role (aggressive : Bool) (opts : AgentLoopOptions)
    (messages : List ChatMessage) :
    (shrinkMessages aggressive opts messages).map (fun m => m.role)
      = messages.map (fun m => m.role) :=
  shrinkMessagesFrom_map_role aggressive opts 0 messages

lemma shrinkMessages_length (aggressive : Bool) (opts : AgentLoopOptions)
    (messages : List ChatMessage) :
    (shrinkMessages aggressive opts messages).length = messages.length :=
  shrinkMessagesFrom_length aggressive opts 0 messages

/-- Every pruning step deletes the element at index 1, so the loop result is
the head followed by some suffix of the original tail. -/
lemma pruneLoop_shape (opts : AgentLoopOptions) :
    ∀ (fuel : Nat) (m0 : ChatMessage) (tail : List ChatMessage),
      ∃ k, pruneLoop opts fuel (m0 :: tail) = m0 :: tail.drop k
  | 0, m0, tail => ⟨0, rfl⟩
  | fuel + 1, m0, [] => ⟨0, rfl⟩
  | fuel + 1, m0, m1 :: rest => by
    by_cases h : totalContextChars (m0 :: m1 :: rest) > opts.maxContextChars
        ∧ (m0 :: m1 :: rest).length > 2
    · obtain ⟨k, hk⟩ := pruneLoop_shape opts fuel m0 rest
      refine ⟨k + 1, ?_⟩
      simp only [pruneLoop]
      rw [if_pos h, hk]
      rfl
    · refine ⟨0, ?_⟩
      simp only [pruneLoop]
      rw [if_neg h]
      rfl

/-- With enough fuel the pruning loop runs until its guard fails: the result
is within budget or at most two messages remain. -/
lemma pruneLoop_post (opts : AgentLoopOptions) :
    ∀ (fuel : Nat) (messages : List ChatMessage), messages.length ≤ fuel →
      totalContextChars (pruneLoop opts fuel messages) ≤ opts.maxContextChars
        ∨ (pruneLoop opts fuel messages).length ≤ 2
  | 0, messages, h => by
    have : messages = [] := List.eq_nil_of_length_eq_zero (Nat.le_zero.mp h)
    subst this
    exact Or.inr (by simp [pruneLoop])
  | fuel + 1, [], _ => Or.inr (by simp [pruneLoop])
  | fuel + 1, [m0], _ => Or.inr (by simp [pruneLoop])
  | fuel + 1, m0 :: m1 :: rest, h => by
    by_cases hc : totalContextChars (m0 :: m1 :: rest) > opts.maxContextChars
        ∧ (m0 :: m1 :: rest).length > 2
    · have hlen : (m0 :: rest).length ≤ fuel := by
        simp only [List.length_cons] at h ⊢
        omega
      have ih := pruneLoop_post opts fuel (m0 :: rest) hlen
      simp only [pruneLoop]
      rw [if_pos hc]
      exact ih
    · simp only [pruneLoop]
      rw [if_neg hc]
      rcases not_and_or.mp hc with hc1 | hc2
      · exact Or.inl (Nat.not_lt.mp hc1)
      · exact Or.inr (Nat.not_lt.mp hc2)

lemma pruneLoop_two_le (opts : AgentLoopOptions) :
    ∀ (fuel : Nat) (messages : List ChatMessage), 2 ≤ messages.length →
      2 ≤ (pruneLoop opts fuel messages).length
  | 0, messages, h => by simpa [pruneLoop] using h
  | fuel + 1, [], h => by simp at h
  | fuel + 1, [m0], h => by simp at h
  | fuel + 1, m0 :: m1 :: rest, h => by
    by_cases hc : totalContextChars (m0 :: m1 :: rest) > opts.maxContextChars
        ∧ (m0 :: m1 :: rest).length > 2
    · have h2 : 2 ≤ (m0 :: rest).length := by
        have := hc.2
        simp only [List.length_cons] at this ⊢
        omega
      have ih := pruneLoop_two_le opts fuel (m0 :: rest) h2
      simp only [pruneLoop]
      rw [if_pos hc]
      exact ih
    · simp only [pruneLoop]
      rw [if_neg hc]
      exact h

lemma enforceContextBudget_spec (opts : AgentLoopOptions) (m0 m1 : ChatMessage)
    (rest : List ChatMessage) :
    2 ≤ (enforceContextBudget opts (m0 :: m1 :: rest)).length
    ∧ (∃ k, (enforceContextBudget opts (m0 :: m1 :: rest)).map (fun m => m.role)
        = m0.role :: ((m1 :: rest).map (fun m => m.role)).drop k)
    ∧ (totalContextChars (enforceContextBudget opts (m0 :: m1 :: rest)) ≤ opts.maxContextChars
        ∨ (enforceContextBudget opts (m0 :: m1 :: rest)).length = 2) := by
  unfold enforceContextBudget
  have hs : shrinkMessages false opts (m0 :: m1 :: rest)
      = shrinkMessage false opts 0 m0 :: shrinkMessage false opts 1 m1
        :: shrinkMessagesFrom false opts 2 rest := rfl
  have hsrest_role : (shrinkMessagesFrom false opts 2 rest).map (fun m => m.role)
      = rest.map (fun m => m.role) := shrinkMessagesFrom_map_role false opts 2 rest
  have hsrest_len : (shrinkMessagesFrom false opts 2 rest).length = rest.length :=
    shrinkMessagesFrom_length false opts 2 rest
  by_cases hshort : (shrinkMessages false opts (m0 :: m1 :: rest)).length ≤ 2
  · rw [if_pos hshort]
    have hnil : rest = [] := by
      rw [hs] at hshort
      simp only [List.length_cons, hsrest_len] at hshort
      exact List.eq_nil_of_length_eq_zero (by omega)
    subst hnil
    have hfrom : shrinkMessagesFrom false opts 2 ([] : List ChatMessage) = [] := rfl
    refine ⟨by rw [hs, hfrom]; simp, ⟨0, ?_⟩, Or.inr (by rw [hs, hfrom]; simp)⟩
    rw [hs, hfrom]
    simp [shrinkMessage_role]
  · rw [if_neg hshort]
    rw [hs] at hshort ⊢
    set stail := shrinkMessage false opts 1 m1 :: shrinkMessagesFrom false opts 2 rest with hstail
    obtain ⟨k, hk⟩ := pruneLoop_shape opts
      (shrinkMessage false opts 0 m0 :: stail).length (shrinkMessage false opts 0 m0) stail
    have hmap : stail.map (fun m => m.role) = (m1 :: rest).map (fun m => m.role) := by
      rw [hstail]
      simp [shrinkMessage_role, hsrest_role]
    have hroles : (shrinkMessage false opts 0 m0 :: stail.drop k).map (fun m => m.role)
        = m0.role :: ((m1 :: rest).map (fun m => m.role)).drop k := by
      simp only [List.map_cons, shrinkMessage_role, List.map_drop, hmap]
    have hlen2 : 2 ≤ (pruneLoop opts (shrinkMessage false opts 0 m0 :: stail).length
        (shrinkMessage false opts 0 m0 :: stail)).length := by
      apply pruneLoop_two_le
      simp [hstail]
    have hpost := pruneLoop_post opts (shrinkMessage false opts 0 m0 :: stail).length
      (shrinkMessage false opts 0 m0 :: stail) le_rfl
    by_cases hover : totalContextChars (pruneLoop opts
        (shrinkMessage false opts 0 m0 :: stail).length
        (shrinkMessage false opts 0 m0 :: stail)) > opts.maxContextChars
    · rw [if_pos hover]
      have hlen_eq : (pruneLoop opts (shrinkMessage false opts 0 m0 :: stail).length
          (shrinkMessage false opts 0 m0 :: stail)).length = 2 := by
        rcases hpost with hle | h2
        · omega
        · omega
      refine ⟨by rw [shrinkMessages_length]; omega, ⟨k, ?_⟩,
        Or.inr (by rw [shrinkMessages_length]; exact hlen_eq)⟩
      rw [shrinkMessages_map_role, hk, hroles]
    · rw [if_neg hover]
      exact ⟨hlen2, ⟨k, by rw [hk, hroles]⟩, Or.inl (Nat.not_lt.mp hover)⟩

/-- C1 (amended): for every transcript with the two seed entries present,
`enforceContextBudget` keeps at least two entries, preserves the entry at
index 0 with its role unmodified, and every pruning step removes the entry
at index 1 (the oldest entry after the system entry), so the surviving
roles are the head's role followed by a suffix of the remaining roles; the
result is within `maxContextChars` unless pruning stopped with exactly two
entries remaining. -/
theorem enforceContextBudget_keeps_head_prunes_index1 (opts : AgentLoopOptions)
    (m0 m1 : ChatMessage) (rest : List ChatMessage) :
    2 ≤ (enforceContextBudget opts (m0 :: m1 :: rest)).length
    ∧ (∃ k, (enforceContextBudget opts (m0 :: m1 :: rest)).map (fun m => m.role)
        = m0.role :: ((m1 :: rest).map (fun m => m.role)).drop k)
    ∧ (totalContextChars (enforceContextBudget opts (m0 :: m1 :: rest)) ≤ opts.maxContextChars
        ∨ (enforceContextBudget opts (m0 :: m1 :: rest)).length = 2) :=
  enforceContextBudget_spec opts m0 m1 rest

/-- An over-budget transcript whose pruning deletes the initiating user
entry (index 1), leaving an assistant entry at index 1. -/
def c1Options : AgentLoopOptions := { maxContextChars := 100 }

/-- Four tiny messages: the 32-character per-message overhead alone
(4 × 32 + 2 = 130 characters) exceeds the 100-character budget. -/
def c1Messages : List ChatMessage :=
  [ { role := .system, content := some "" },
    { role := .user, content := some "" },
    { role := .assistant, content := some "x" },
    { role := .tool, content := some "y", tool_call_id := some "t1" } ]

/-- A 200-character system text. -/
def c1LongText : String := String.mk (List.replicate 200 'a')

/-- Two messages, the system entry oversized: the budget pass returns after
shrinking (which never clamps system content), still over budget. -/
def c1Messages2 : List ChatMessage :=
  [ { role := .system, content := some c1LongText },
    { role := .user, content := some "" } ]

set_option maxRecDepth 20000 in
/-- C1 counterexample: on `c1Messages` (over budget), enforcement removes
the initiating user entry — the entry at index 1 afterwards has role
`assistant`, not `user` — and on `c1Messages2` (over budget) the result
still exceeds `maxTranscriptChars`. -/
theorem enforceContextBudget_claim_false :
    (totalContextChars c1Messages > c1Options.maxContextChars
      ∧ ((enforceContextBudget c1Options c1Messages).map (fun m => m.role))[1]?
          = some Role.assistant
      ∧ some Role.assistant ≠ some Role.user)
    ∧ (totalContextChars c1Messages2 > c1Options.maxContextChars
      ∧ totalContextChars (enforceContextBudget c1Options c1Messages2)
          > c1Options.maxContextChars) := by
  constructor
  · exact ⟨by decide, by decide, by decide⟩
  · constructor
    · show 100 < totalContextChars c1Messages2
      have h264 : totalContextChars c1Messages2 = 264 := by decide
      omega
    · show 100 < totalContextChars (enforceContextBudget c1Options c1Messages2)
      have henf : enforceContextBudget c1Options c1Messages2 = c1Messages2 := by decide
      have h264 : totalContextChars c1Messages2 = 264 := by decide
      rw [henf, h264]
      omega

/-- C4 (amended): clamping is the identity — hence idempotent — on every
string whose length is at most the ceiling.  (An already-clamped oversized
string exceeds the ceiling by the marker line and is clamped again to a
different text, see the counterexample.) -/
theorem boundContent_idempotent_on_fitting (content : String) (maxChars : Nat)
    (label : String) (h : content.length ≤ maxChars) :
    boundContent content maxChars label = content
    ∧ boundContent (boundContent content maxChars label) maxChars label
        = boundContent content maxChars label := by
  have h1 : boundContent content maxChars label = content := by
    unfold boundContent
    rw [if_pos h]
  exact ⟨h1, by rw [h1, h1]⟩

/-- Witness for the amended C4 theorem at a concrete input. -/
theorem boundContent_idempotent_on_fitting_witness :
    ("abc" : String).length ≤ 5
    ∧ (boundContent "abc" 5 "x" = "abc"
        ∧ boundContent (boundContent "abc" 5 "x") 5 "x" = boundContent "abc" 5 "x") :=
  ⟨by decide, boundContent_idempotent_on_fitting "abc" 5 "x" (by decide)⟩

set_option maxRecDepth 20000 in
/-- C4 counterexample: clamping a 20-character string to a 10-character
ceiling yields a 47-character string (the marker line exceeds the ceiling),
so clamping it again with the same ceiling changes the text. -/
theorem boundContent_not_idempotent :
    boundContent (boundContent "01234567890123456789" 10 "L") 10 "L"
      ≠ boundContent "01234567890123456789" 10 "L" := by decide

/-- Arguments already parsed from JSON (`Record<string, unknown>` is
abstracted to its observable skeleton; the executor only passes it
through). -/
def JsObject := List (String × String)
deriving DecidableEq, Repr

/-- tool-executor.ts `ToolResult`. -/
structure ToolResult where
  tool_call_id : String
  content : String
deriving DecidableEq, Repr

/-- The external collaborators of `ToolExecutor.executeToolCall`:
`JSON.parse` (throwing on invalid JSON), `McpClient.executeTool` and
`LocalTools.executeTool` (both possibly throwing). -/
structure ToolEnv where
  parseJson : String → Except JsError JsObject
  mcpExec : String → JsObject → Except JsError String
  localExec : String → JsObject → Except JsError String

/-- The routing block of tool-executor.ts `executeToolCall` (lines 44-53):
`ado_*` goes to the MCP client with the prefix stripped (`name.slice(4)`),
`local_*` goes to the local tools with the full name, anything else is an
error text. -/
def routeTool (env : ToolEnv) (name : String) (args : JsObject) : Except JsError String :=
  if jsStartsWith name "ado_" then env.mcpExec (name.drop 4) args
  else if jsStartsWith name "local_" then env.localExec name args
  else .ok ("Error: Unknown tool prefix. Expected ado_* or local_*. Got: " ++ name)

/-- tool-executor.ts `ToolExecutor.executeToolCall`.  The return type
`Except JsError ToolResult` models the possibility of an uncaught
exception; both `try/catch` blocks of the source appear as `match`es whose
error branches return `.ok` with an error text. -/
def executeToolCall (env : ToolEnv) (toolCall : ToolCall) : Except JsError ToolResult :=
  match env.parseJson toolCall.function.arguments with
  | .error _ =>
    .ok { tool_call_id := toolCall.id,
          content := "Error: Could not parse arguments: " ++ toolCall.function.arguments }
  | .ok args =>
    match routeTool env toolCall.function.name args with
    | .ok result => .ok { tool_call_id := toolCall.id, content := result }
    | .error err =>
      .ok { tool_call_id := toolCall.id,
            content := "Error executing " ++ toolCall.function.name ++ ": "
              ++ err.message.getD "undefined" }

/-- tool-executor.ts `ToolExecutor.executeToolCalls`: sequential execution,
results in call order. -/
def executeToolCalls (env : ToolEnv) : List ToolCall → Except JsError (List ToolResult)
  | [] => .ok []
  | c :: cs =>
    match executeToolCall env c with
    | .error e => .error e
    | .ok r =>
      match executeToolCalls env cs with
      | .error e => .error e
      | .ok rs => .ok (r :: rs)

/-- The `switch (name)` of local-tools.ts `LocalTools.executeTool`
dispatches on the full, `local_`-prefixed tool names; any other name
throws `Unknown local tool`. -/
def localToolsRecognizes (name : String) : Bool :=
  name == "local_read_file" || name == "local_edit_file" || name == "local_search_files"
    || name == "local_grep" || name == "local_get_repo_index"
    || name == "local_list_directory" || name == "local_run_command"

lemma executeToolCall_ok (env : ToolEnv) (toolCall : ToolCall) :
    ∃ text, executeToolCall env toolCall = .ok { tool_call_id := toolCall.id, content := text } := by
  cases h : env.parseJson toolCall.function.arguments with
  | error e => exact ⟨_, by simp only [executeToolCall, h]; rfl⟩
  | ok args =>
    cases h2 : routeTool env toolCall.function.name args with
    | ok result => exact ⟨_, by simp only [executeToolCall, h, h2]; rfl⟩
    | error err => exact ⟨_, by simp only [executeToolCall, h, h2]; rfl⟩

lemma executeToolCalls_ok (env : ToolEnv) :
    ∀ calls : List ToolCall,
      ∃ results, executeToolCalls env calls = .ok results
        ∧ results.map (fun r => r.tool_call_id) = calls.map (fun c => c.id)
  | [] => ⟨[], rfl, rfl⟩
  | c :: cs => by
    obtain ⟨text, htext⟩ := executeToolCall_ok env c
    obtain ⟨rs, hrs, hids⟩ := executeToolCalls_ok env cs
    refine ⟨{ tool_call_id := c.id, content := text } :: rs, ?_, ?_⟩
    · unfold executeToolCalls
      rw [htext, hrs]
    · simp [hids]

/-- C3: tool dispatch never throws — for every environment (including one
whose tools throw) and every tool call (including non-JSON arguments and
unknown name prefixes) `executeToolCall` returns a textual result; and when
the arguments fail to parse, the result is the fixed parse-error text and
is independent of the tool implementations (no tool is invoked). -/
theorem executeToolCall_never_throws (env : ToolEnv) (toolCall : ToolCall) :
    (∃ r, executeToolCall env toolCall = .ok r)
    ∧ (∀ e, env.parseJson toolCall.function.arguments = .error e →
        executeToolCall env toolCall
          = .ok { tool_call_id := toolCall.id,
                  content := "Error: Could not parse arguments: "
                    ++ toolCall.function.arguments }
        ∧ ∀ env2 : ToolEnv, env2.parseJson = env.parseJson →
            executeToolCall env2 toolCall = executeToolCall env toolCall) := by
  constructor
  · obtain ⟨text, h⟩ := executeToolCall_ok env toolCall
    exact ⟨_, h⟩
  · intro e he
    have h1 : executeToolCall env toolCall
        = .ok { tool_call_id := toolCall.id,
                content := "Error: Could not parse arguments: "
                  ++ toolCall.function.arguments } := by
      simp only [executeToolCall, he]
    refine ⟨h1, fun env2 hsame => ?_⟩
    have he2 : env2.parseJson toolCall.function.arguments = .error e := by
      rw [hsame, he]
    simp only [executeToolCall, he, he2]

/-- An environment whose `JSON.parse` always throws. -/
def envParseFails : ToolEnv :=
  { parseJson := fun _ => .error {},
    mcpExec := fun n _ => .ok n,
    localExec := fun n _ => .ok n }

/-- A tool call whose arguments are not valid JSON. -/
def tcBadArgs : ToolCall :=
  { id := "call-1", function := { name := "ado_listBuilds", arguments := "not json" } }

/-- Witness for C3 at a concrete input. -/
theorem executeToolCall_never_throws_witness :
    executeToolCall envParseFails tcBadArgs
      = .ok { tool_call_id := "call-1", content := "Error: Could not parse arguments: not json" } :=
  ((executeToolCall_never_throws envParseFails tcBadArgs).2 {} rfl).1

/-- C10: on every path — success, argument-parse failure, unknown prefix,
tool exception — the result of `executeToolCall` carries the input call's
id as `tool_call_id`, and `executeToolCalls` returns results whose ids are
pointwise the ids of the calls they answer. -/
theorem executeToolCall_result_id_matches (env : ToolEnv) (toolCall : ToolCall) :
    (∃ text, executeToolCall env toolCall
        = .ok { tool_call_id := toolCall.id, content := text })
    ∧ (∀ calls : List ToolCall, ∃ results,
        executeToolCalls env calls = .ok results
        ∧ results.map (fun r => r.tool_call_id) = calls.map (fun c => c.id)) :=
  ⟨executeToolCall_ok env toolCall, fun calls => executeToolCalls_ok env calls⟩

/-- C8 (amended): the router strips the `ado_` prefix before forwarding to
the subprocess-backed family (`name.slice(4)`), but forwards `local_` tools
with their full, still-prefixed name; the local subsystem's own dispatcher
matches on the prefixed names. -/
theorem routeTool_strips_only_ado (env : ToolEnv) (name : String) (args : JsObject) :
    (jsStartsWith name "ado_" = true → routeTool env name args = env.mcpExec (name.drop 4) args)
    ∧ (jsStartsWith name "ado_" = false → jsStartsWith name "local_" = true →
        routeTool env name args = env.localExec name args)
    ∧ localToolsRecognizes "local_read_file" = true
    ∧ localToolsRecognizes "read_file" = false := by
  refine ⟨fun h => by simp [routeTool, h], fun h1 h2 => by simp [routeTool, h1, h2],
    by decide, by decide⟩

/-- An environment whose tools echo back the name they were invoked with,
so the forwarded tool name is observable in the result. -/
def envEcho : ToolEnv :=
  { parseJson := fun s => .ok [("raw", s)],
    mcpExec := fun n _ => .ok n,
    localExec := fun n _ => .ok n }

/-- Witness for the amended C8 theorem at concrete inputs. -/
theorem routeTool_strips_only_ado_witness :
    routeTool envEcho "ado_getBuild" [] = envEcho.mcpExec "getBuild" []
    ∧ routeTool envEcho "local_grep" [] = envEcho.localExec "local_grep" [] :=
  ⟨(routeTool_strips_only_ado envEcho "ado_getBuild" []).1 (by decide),
   (routeTool_strips_only_ado envEcho "local_grep" []).2.1 (by decide) (by decide)⟩

/-- C8 counterexample: with echoing tools, a `local_read_file` call is
forwarded under its full prefixed name (`local_read_file`, not
`read_file`), while an `ado_getBuild` call is forwarded stripped. -/
theorem routeTool_local_prefix_not_stripped :
    executeToolCall envEcho { id := "t1", function := { name := "local_read_file", arguments := "x" } }
      = .ok { tool_call_id := "t1", content := "local_read_file" }
    ∧ "local_read_file" ≠ "read_file"
    ∧ executeToolCall envEcho { id := "t2", function := { name := "ado_getBuild", arguments := "x" } }
      = .ok { tool_call_id := "t2", content := "getBuild" } := by
  refine ⟨by decide, by decide, by decide⟩

/-- One `delta.tool_calls[...]` fragment of the SSE stream
(azure-openai-client.ts `chatCompletionStream`): an index plus optional id,
name and argument pieces. -/
structure ToolCallDelta where
  index : Nat
  id : Option String := none
  name : Option String := none
  arguments : Option String := none
deriving DecidableEq, Repr

/-- One in-progress entry of `toolCallsMap`. -/
structure PartialToolCall where
  id : String
  name : String
  arguments : String
deriving DecidableEq, Repr

/-- The `toolCallsMap` update of azure-openai-client.ts (lines 267-282).
The JS `Map` is modelled as an association list in insertion order: a new
index is appended at the end (`Map.set` of a fresh key), an existing index
is updated in place (position preserved).  First fragment: `id ?? ""`,
`name ?? ""`, `arguments ?? ""`; later fragments append under JS
truthiness checks. -/
def applyToolCallDelta (m : List (Nat × PartialToolCall)) (tc : ToolCallDelta) :
    List (Nat × PartialToolCall) :=
  match m.lookup tc.index with
  | none =>
    m ++ [(tc.index,
      { id := tc.id.getD "", name := tc.name.getD "", arguments := tc.arguments.getD "" })]
  | some _ =>
    m.map fun p =>
      if p.1 = tc.index then
        (p.1,
          { id := if optTruthy tc.id then tc.id.getD "" else p.2.id,
            name := if optTruthy tc.name then p.2.name ++ tc.name.getD "" else p.2.name,
            arguments :=
              if optTruthy tc.arguments then p.2.arguments ++ tc.arguments.getD ""
              else p.2.arguments })
      else p

/-- The finalization of azure-openai-client.ts (lines 294-306):
`Array.from(toolCallsMap.values()).sort((a, b) => 0)` — a constant-zero
comparator under the (ES2019+) stable sort leaves the values in `Map`
insertion order — mapped into finished `ToolCall`s. -/
def finalizeToolCalls (m : List (Nat × PartialToolCall)) : List ToolCall :=
  m.map fun p => { id := p.2.id, function := { name := p.2.name, arguments := p.2.arguments } }

/-- Modelled from the spec: "finalize the map into an ordered list
preserving original index order" — the entries sorted by ascending
tool-call index (insertion sort on the index key) and then finished. -/
def insertByIndex (p : Nat × PartialToolCall) :
    List (Nat × PartialToolCall) → List (Nat × PartialToolCall)
  | [] => [p]
  | q :: rest => if p.1 ≤ q.1 then p :: q :: rest else q :: insertByIndex p rest

/-- Modelled from the spec: finalization in ascending index order. -/
def finalizeOrderedByIndexSpec (m : List (Nat × PartialToolCall)) : List ToolCall :=
  finalizeToolCalls (m.foldr insertByIndex [])

/-- Concatenation of a fragment list (the original argument string that
was split across fragments). -/
def concatAll : List String → String
  | [] => ""
  | f :: rest => f ++ concatAll rest

/-- The fragment sequence for a single tool-call index: the first fragment
may carry the id and name, subsequent fragments carry only argument
pieces. -/
def argDeltas (i : Nat) (idO nameO : Option String) : List String → List ToolCallDelta
  | [] => []
  | f :: rest =>
    { index := i, id := idO, name := nameO, arguments := some f }
      :: rest.map fun g => { index := i, arguments := some g }

lemma optTruthy_append (v g : String) :
    (if optTruthy (some g) then v ++ g else v) = v ++ g := by
  by_cases h : g = ""
  · subst h
    simp [optTruthy]
  · simp [optTruthy, h]

lemma foldl_arg_append (i : Nat) :
    ∀ (gs : List String) (v : PartialToolCall),
      List.foldl applyToolCallDelta [(i, v)]
          (gs.map fun g => { index := i, arguments := some g })
        = [(i, { v with arguments := v.arguments ++ concatAll gs })]
  | [], v => by simp [concatAll]
  | g :: gs, v => by
    have hstep : applyToolCallDelta [(i, v)] { index := i, arguments := some g }
        = [(i, { v with arguments := v.arguments ++ g })] := by
      by_cases hg : g = ""
      · subst hg
        simp [applyToolCallDelta, List.lookup, optTruthy]
      · simp [applyToolCallDelta, List.lookup, optTruthy, hg]
    calc List.foldl applyToolCallDelta [(i, v)]
          ((g :: gs).map fun g2 => { index := i, arguments := some g2 })
        = List.foldl applyToolCallDelta [(i, { v with arguments := v.arguments ++ g })]
            (gs.map fun g2 => { index := i, arguments := some g2 }) := by
          simp [hstep]
      _ = [(i, { v with arguments := (v.arguments ++ g) ++ concatAll gs })] :=
          foldl_arg_append i gs { v with arguments := v.arguments ++ g }
      _ = [(i, { v with arguments := v.arguments ++ concatAll (g :: gs) })] := by
          simp [concatAll, String.append_assoc]

/-- C5: for every original argument string and every split of it into one
or more fragments, feeding the fragments in arrival order for a single
tool-call index reconstructs exactly the original string in the finished
tool call. -/
theorem assembler_reconstructs_arguments (i : Nat) (idO nameO : Option String)
    (frags : List String) (s : String) (hne : frags ≠ [])
    (hjoin : concatAll frags = s) :
    (finalizeToolCalls (List.foldl applyToolCallDelta [] (argDeltas i idO nameO frags))).map
        (fun c => c.function.arguments) = [s] := by
  cases frags with
  | nil => exact absurd rfl hne
  | cons f rest =>
    have hfirst : applyToolCallDelta [] { index := i, id := idO, name := nameO, arguments := some f }
        = [(i, { id := idO.getD "", name := nameO.getD "", arguments := f })] := by
      simp [applyToolCallDelta, List.lookup]
    have hfold := foldl_arg_append i rest
      { id := idO.getD "", name := nameO.getD "", arguments := f }
    calc (finalizeToolCalls (List.foldl applyToolCallDelta []
            (argDeltas i idO nameO (f :: rest)))).map (fun c => c.function.arguments)
        = (finalizeToolCalls (List.foldl applyToolCallDelta
            [(i, { id := idO.getD "", name := nameO.getD "", arguments := f })]
            (rest.map fun g => { index := i, arguments := some g }))).map
              (fun c => c.function.arguments) := by
          simp [argDeltas, hfirst]
      _ = [f ++ concatAll rest] := by rw [hfold]; simp [finalizeToolCalls]
      _ = [s] := by rw [← hjoin]; rfl

/-- Witness for C5 at a concrete input: the split
`["ab", "", "c"]` of `"abc"` (including an empty fragment). -/
theorem assembler_reconstructs_arguments_witness :
    (finalizeToolCalls (List.foldl applyToolCallDelta
        [] (argDeltas 0 (some "id7") (some "fn") ["ab", "", "c"]))).map
      (fun c => c.function.arguments) = ["abc"] :=
  assembler_reconstructs_arguments 0 (some "id7") (some "fn") ["ab", "", "c"] "abc"
    (by decide) (by decide)

/-- The first occurrence order of indices in an arrival sequence, given the
set of indices already seen: exactly the order in which a JS `Map` keyed by
index acquires its keys. -/
def firstOccurrencesFrom (seen : List Nat) : List Nat → List Nat
  | [] => []
  | i :: rest =>
    if i ∈ seen then firstOccurrencesFrom seen rest
    else i :: firstOccurrencesFrom (seen ++ [i]) rest

lemma lookup_eq_none_iff (k : Nat) :
    ∀ m : List (Nat × PartialToolCall), m.lookup k = none ↔ k ∉ m.map Prod.fst
  | [] => by simp [List.lookup]
  | (a, v) :: rest => by
    by_cases h : k = a
    · subst h
      have hb : (k == k) = true := by simp
      simp [List.lookup, hb]
    · have hb : (k == a) = false := by simp [h]
      simp [List.lookup, hb, h, lookup_eq_none_iff k rest]

lemma applyToolCallDelta_keys (m : List (Nat × PartialToolCall)) (d : ToolCallDelta) :
    (applyToolCallDelta m d).map Prod.fst
      = if d.index ∈ m.map Prod.fst then m.map Prod.fst
        else m.map Prod.fst ++ [d.index] := by
  by_cases h : d.index ∈ m.map Prod.fst
  · rw [if_pos h]
    have hlk : m.lookup d.index ≠ none := by
      intro hnone
      exact ((lookup_eq_none_iff d.index m).mp hnone) h
    cases hl : m.lookup d.index with
    | none => exact absurd hl hlk
    | some v =>
      unfold applyToolCallDelta
      rw [hl]
      simp only [List.map_map]
      apply List.map_congr_left
      intro p _
      by_cases hp : p.1 = d.index
      · simp [hp]
      · simp [hp]
  · rw [if_neg h]
    have hl : m.lookup d.index = none := (lookup_eq_none_iff d.index m).mpr h
    unfold applyToolCallDelta
    rw [hl]
    simp

lemma foldl_applyToolCallDelta_keys :
    ∀ (deltas : List ToolCallDelta) (m : List (Nat × PartialToolCall)),
      (List.foldl applyToolCallDelta m deltas).map Prod.fst
        = m.map Prod.fst
          ++ firstOccurrencesFrom (m.map Prod.fst) (deltas.map fun d => d.index)
  | [], m => by simp [firstOccurrencesFrom]
  | d :: rest, m => by
    have hkeys := applyToolCallDelta_keys m d
    have ih := foldl_applyToolCallDelta_keys rest (applyToolCallDelta m d)
    by_cases h : d.index ∈ m.map Prod.fst
    · rw [if_pos h] at hkeys
      calc (List.foldl applyToolCallDelta m (d :: rest)).map Prod.fst
          = (List.foldl applyToolCallDelta (applyToolCallDelta m d) rest).map Prod.fst := by
            simp
        _ = (applyToolCallDelta m d).map Prod.fst
              ++ firstOccurrencesFrom ((applyToolCallDelta m d).map Prod.fst)
                   (rest.map fun d => d.index) := ih
        _ = m.map Prod.fst
              ++ firstOccurrencesFrom (m.map Prod.fst)
                   (((d :: rest).map fun d => d.index)) := by
            rw [hkeys]
            simp [firstOccurrencesFrom, h]
    · rw [if_neg h] at hkeys
      calc (List.foldl applyToolCallDelta m (d :: rest)).map Prod.fst
          = (List.foldl applyToolCallDelta (applyToolCallDelta m d) rest).map Prod.fst := by
            simp
        _ = (applyToolCallDelta m d).map Prod.fst
              ++ firstOccurrencesFrom ((applyToolCallDelta m d).map Prod.fst)
                   (rest.map fun d => d.index) := ih
        _ = m.map Prod.fst
              ++ firstOccurrencesFrom (m.map Prod.fst)
                   (((d :: rest).map fun d => d.index)) := by
            rw [hkeys]
            simp [firstOccurrencesFrom, h]

/-- C6 (amended): on stream end the assembler finalizes the map into a list
in JS-`Map` insertion order, i.e. the order in which distinct tool-call
indices FIRST ARRIVED (the constant-zero sort comparator is a no-op under
the ES stable sort); this coincides with ascending index order only when
indices first arrive in ascending order. -/
theorem finalize_in_first_arrival_order (deltas : List ToolCallDelta) :
    (List.foldl applyToolCallDelta [] deltas).map Prod.fst
      = firstOccurrencesFrom [] (deltas.map fun d => d.index) := by
  have h := foldl_applyToolCallDelta_keys deltas []
  simpa using h

/-- The fragments of the call at index 1 arrive before those of the call at
index 0. -/
def c6Deltas : List ToolCallDelta :=
  [ { index := 1, id := some "b", name := some "g", arguments := some "y" },
    { index := 0, id := some "a", name := some "f", arguments := some "x" } ]

/-- C6 counterexample: when index 1 arrives before index 0, finalization
emits the call with index 1 first — first-arrival order, not the original
index order the claim requires (the index-ordered finalization modelled
from the spec gives the opposite list). -/
theorem finalize_not_in_index_order :
    finalizeToolCalls (List.foldl applyToolCallDelta [] c6Deltas)
      = [ { id := "b", function := { name := "g", arguments := "y" } },
          { id := "a", function := { name := "f", arguments := "x" } } ]
    ∧ finalizeOrderedByIndexSpec (List.foldl applyToolCallDelta [] c6Deltas)
      = [ { id := "a", function := { name := "f", arguments := "x" } },
          { id := "b", function := { name := "g", arguments := "y" } } ]
    ∧ finalizeToolCalls (List.foldl applyToolCallDelta [] c6Deltas)
      ≠ finalizeOrderedByIndexSpec (List.foldl applyToolCallDelta [] c6Deltas) := by
  refine ⟨by decide, by decide, by decide⟩

/-- How a pending request's waiter was settled: resolved with a result,
rejected with a JSON-RPC error, or rejected by the 30s timeout. -/
inductive SettleKind where
  | respOk
  | respErr
  | timeout
deriving DecidableEq, Repr

/-- The observable state of mcp-client.ts `McpClient`: the monotonically
increasing `requestId` counter, the ids of the `pendingRequests` map, and
the log of settlements (each entry is one resolve/reject of a waiter). -/
structure McpState where
  requestId : Nat := 0
  pending : List Nat := []
  settled : List (Nat × SettleKind) := []
deriving DecidableEq, Repr

/-- mcp-client.ts `sendRequest` (lines 99-121): allocate `++this.requestId`,
insert the waiter into `pendingRequests`, write the line, arm the 30s
timer.  Returns the new id with the new state. -/
def sendRequest (s : McpState) : Nat × McpState :=
  let id := s.requestId + 1
  (id, { s with requestId := id, pending := s.pending ++ [id] })

/-- One asynchronous event observed by the client:
`line oid isErr` is one complete line processed by `handleData`
(lines 78-96; `oid = none` covers a malformed line or one without an id,
which is skipped), and `timeoutFire id` is the 30-second timer callback of
`sendRequest` (lines 114-119), which settles only if the id is still
pending. -/
inductive McpEvent where
  | line (oid : Option Nat) (isErr : Bool)
  | timeoutFire (id : Nat)
deriving DecidableEq, Repr

/-- The state transition for one event, exactly mirroring the two
`pendingRequests.has(...)`-guarded blocks of the source: a matching id is
deleted from the map and its waiter settled once; an unknown id is
dropped. -/
def stepEvent (s : McpState) : McpEvent → McpState
  | .line none _ => s
  | .line (some id) isErr =>
    if id ∈ s.pending then
      { s with pending := s.pending.erase id,
               settled := s.settled ++ [(id, if isErr then .respErr else .respOk)] }
    else s
  | .timeoutFire id =>
    if id ∈ s.pending then
      { s with pending := s.pending.erase id,
               settled := s.settled ++ [(id, .timeout)] }
    else s

/-- How many times the waiter of request `id` has been settled. -/
def settleCount (id : Nat) (s : McpState) : Nat :=
  (s.settled.filter fun p => p.1 == id).length

lemma settleCount_append (id j : Nat) (s : McpState) (k : SettleKind) :
    settleCount id { s with pending := s.pending.erase j,
                            settled := s.settled ++ [(j, k)] }
      = settleCount id s + (if j = id then 1 else 0) := by
  by_cases h : j = id
  · simp [settleCount, List.filter_append, h]
  · simp [settleCount, List.filter_append, h]

lemma stepEvent_count_le (id : Nat) (s : McpState) (e : McpEvent) :
    List.count id (stepEvent s e).pending ≤ List.count id s.pending := by
  cases e with
  | line oid isErr =>
    cases oid with
    | none => exact le_rfl
    | some j =>
      by_cases hj : j ∈ s.pending
      · simp only [stepEvent, if_pos hj]
        rw [List.count_erase]
        omega
      · simp only [stepEvent, if_neg hj]
        exact le_rfl
  | timeoutFire j =>
    by_cases hj : j ∈ s.pending
    · simp only [stepEvent, if_pos hj]
      rw [List.count_erase]
      omega
    · simp only [stepEvent, if_neg hj]
      exact le_rfl

lemma stepEvent_sum (id : Nat) (s : McpState) (e : McpEvent) :
    List.count id (stepEvent s e).pending + settleCount id (stepEvent s e)
      = List.count id s.pending + settleCount id s := by
  have key : ∀ (j : Nat) (k : SettleKind), j ∈ s.pending →
      List.count id (s.pending.erase j)
          + settleCount id { s with pending := s.pending.erase j,
                                    settled := s.settled ++ [(j, k)] }
        = List.count id s.pending + settleCount id s := by
    intro j k hj
    rw [settleCount_append]
    by_cases h : j = id
    · subst h
      rw [List.count_erase_self]
      have hpos : 0 < List.count j s.pending := List.count_pos_iff.mpr hj
      have hcancel : List.count j s.pending - 1 + 1 = List.count j s.pending :=
        Nat.succ_pred_eq_of_pos hpos
      rw [if_pos rfl]
      omega
    · rw [List.count_erase_of_ne (fun hh => h hh.symm)]
      simp only [if_neg h]
      omega
  cases e with
  | line oid isErr =>
    cases oid with
    | none => rfl
    | some j =>
      by_cases hj : j ∈ s.pending
      · simp only [stepEvent, if_pos hj]
        exact key j _ hj
      · simp only [stepEvent, if_neg hj]
  | timeoutFire j =>
    by_cases hj : j ∈ s.pending
    · simp only [stepEvent, if_pos hj]
      exact key j .timeout hj
    · simp only [stepEvent, if_neg hj]

lemma foldl_stepEvent_sum (id : Nat) :
    ∀ (evs : List McpEvent) (s : McpState),
      List.count id (List.foldl stepEvent s evs).pending
          + settleCount id (List.foldl stepEvent s evs)
        = List.count id s.pending + settleCount id s
  | [], _ => rfl
  | e :: evs, s => by
    rw [List.foldl_cons, foldl_stepEvent_sum id evs (stepEvent s e), stepEvent_sum]

lemma foldl_stepEvent_count_le (id : Nat) :
    ∀ (evs : List McpEvent) (s : McpState),
      List.count id (List.foldl stepEvent s evs).pending ≤ List.count id s.pending
  | [], _ => le_rfl
  | e :: evs, s =>
    le_trans (foldl_stepEvent_count_le id evs (stepEvent s e)) (stepEvent_count_le id s e)

lemma timeout_clears_pending (id : Nat) (s : McpState)
    (h1 : List.count id s.pending ≤ 1) :
    List.count id (stepEvent s (.timeoutFire id)).pending = 0 := by
  by_cases hm : id ∈ s.pending
  · simp only [stepEvent, if_pos hm]
    rw [List.count_erase_self]
    omega
  · simp only [stepEvent, if_neg hm]
    exact List.count_eq_zero_of_not_mem hm

/-- C7: a request sent with a fresh id is settled exactly once over any
sequence of response lines and timer firings that includes its timeout
firing (which the runtime guarantees after the 30s deadline): afterwards
its id is no longer in the pending map and its waiter was settled exactly
once — by a matching response or by the timeout, never both. -/
theorem mcp_request_settled_exactly_once (s0 : McpState) (evs : List McpEvent)
    (hfresh : (s0.requestId + 1) ∉ s0.pending)
    (hset : settleCount (s0.requestId + 1) s0 = 0)
    (hto : McpEvent.timeoutFire (s0.requestId + 1) ∈ evs) :
    (sendRequest s0).1 ∉ (List.foldl stepEvent (sendRequest s0).2 evs).pending
    ∧ settleCount (sendRequest s0).1 (List.foldl stepEvent (sendRequest s0).2 evs) = 1 := by
  rw [show (sendRequest s0).1 = s0.requestId + 1 from rfl]
  set id := s0.requestId + 1 with hid
  have hstart_count : List.count id (sendRequest s0).2.pending = 1 := by
    simp [sendRequest, List.count_eq_zero_of_not_mem hfresh]
  have hstart_set : settleCount id (sendRequest s0).2 = 0 := hset
  obtain ⟨l1, l2, hsplit⟩ := List.append_of_mem hto
  subst hsplit
  have h1le : List.count id (List.foldl stepEvent (sendRequest s0).2 l1).pending ≤ 1 := by
    rw [← hstart_count]
    exact foldl_stepEvent_count_le id l1 (sendRequest s0).2
  have hafter : List.count id
      (stepEvent (List.foldl stepEvent (sendRequest s0).2 l1) (.timeoutFire id)).pending = 0 :=
    timeout_clears_pending id _ h1le
  have hzero : List.count id (List.foldl stepEvent (sendRequest s0).2
      (l1 ++ .timeoutFire id :: l2)).pending = 0 := by
    rw [List.foldl_append, List.foldl_cons]
    have := foldl_stepEvent_count_le id l2
      (stepEvent (List.foldl stepEvent (sendRequest s0).2 l1) (.timeoutFire id))
    omega
  have hsum := foldl_stepEvent_sum id (l1 ++ .timeoutFire id :: l2) (sendRequest s0).2
  rw [hstart_count, hstart_set] at hsum
  refine ⟨List.count_eq_zero.mp hzero, ?_⟩
  omega

/-- Witness for C7 at a concrete input: the response for id 1 arrives
before the timer fires; the timer then finds nothing pending. -/
theorem mcp_request_settled_exactly_once_witness :
    (sendRequest {}).1 ∉ (List.foldl stepEvent (sendRequest {}).2
        [.line (some 1) false, .timeoutFire 1]).pending
    ∧ settleCount (sendRequest {}).1 (List.foldl stepEvent (sendRequest {}).2
        [.line (some 1) false, .timeoutFire 1]) = 1 :=
  mcp_request_settled_exactly_once {} [.line (some 1) false, .timeoutFire 1]
    (by decide) (by decide) (by decide)

/-- ASCII lower-casing of a string, character by character
(`message.toLowerCase()` on the ASCII error messages involved). -/
def jsToLower (s : String) : String :=
  String.mk (s.data.map Char.toLower)

/-- part_005 `AgentLoop.isAbortError`: `name === "AbortError"` or the
message contains `"aborted"`. -/
def isAbortError (e : JsError) : Bool :=
  decide (e.name = some "AbortError")
    || (match e.message with
        | some m => jsIncludes m "aborted"
        | none => false)

/-- part_005 `AgentLoop.isContextLengthError`: the lower-cased message
contains one of three provider-specific substrings. -/
def isContextLengthError (e : JsError) : Bool :=
  let m := jsToLower (e.message.getD "")
  jsIncludes m "context_length_exceeded" || jsIncludes m "input tokens exceed"
    || jsIncludes m "configured limit"

/-- The mutable state of one `AgentLoop.run` invocation, instrumented with
the number of model calls made and aggressive compactions performed. -/
structure RunState where
  messages : List ChatMessage
  turnCount : Nat
  modelCalls : Nat
  compactions : Nat
deriving DecidableEq, Repr

/-- The model as an external collaborator: the outcome of the n-th
(1-based) `chatCompletionStream` call of the session. -/
def ModelOracle := Nat → Except JsError ChatCompletionResponse

/-- The inner `while (true) { try ... catch }` of part_005 run (lines
94-130): one model call; on a context-length error when not yet retried,
compact aggressively once and retry; any further error is rethrown. -/
def callModelWithRetry (model : ModelOracle) (opts : AgentLoopOptions) (s : RunState) :
    Except JsError ChatCompletionResponse × RunState :=
  let s1 : RunState := { s with modelCalls := s.modelCalls + 1 }
  match model s1.modelCalls with
  | .ok r => (.ok r, s1)
  | .error e =>
    if isContextLengthError e then
      let s2 : RunState := { s1 with
        messages := compactConversationAggressively opts s1.messages,
        compactions := s1.compactions + 1 }
      let s3 : RunState := { s2 with modelCalls := s2.modelCalls + 1 }
      match model s3.modelCalls with
      | .ok r => (.ok r, s3)
      | .error e2 => (.error e2, s3)
    else (.error e, s1)

/-- part_005 run lines 132-152: push the assistant entry (bounded content
and/or bounded tool calls; nothing is pushed when the response has neither
truthy content nor tool calls). -/
def appendAssistant (opts : AgentLoopOptions) (resp : ChatCompletionResponse)
    (messages : List ChatMessage) : List ChatMessage :=
  if optTruthy resp.content then
    let btc := boundToolCalls opts resp.toolCalls
    messages ++ [{ role := .assistant,
                   content := some (boundContent (resp.content.getD "")
                     opts.maxAssistantMessageChars "assistant response"),
                   tool_calls := if btc.length > 0 then some btc else none }]
  else if resp.toolCalls.length > 0 then
    messages ++ [{ role := .assistant, content := none,
                   tool_calls := some (boundToolCalls opts resp.toolCalls) }]
  else messages

/-- part_005 run lines 166-181: push one `tool` entry per result, content
bounded to the tool-result ceiling, correlated by `tool_call_id`. -/
def appendToolResults (opts : AgentLoopOptions) (results : List ToolResult)
    (messages : List ChatMessage) : List ChatMessage :=
  messages ++ results.map fun r =>
    { role := .tool,
      content := some (boundContent r.content opts.maxToolResultChars "tool result"),
      tool_call_id := some r.tool_call_id }

/-- The `while (turnCount < maxTurns)` loop of part_005 run, with
`fuel = maxTurns - turnCount` as the decreasing argument.  Exhausted fuel
is the loop exit, returning the fixed max-turns result (lines 193-195).
Each iteration: abort check, turn increment, budget enforcement, model
call with one-shot context retry (errors converted to the cancellation
result when they are abort errors, rethrown otherwise — the outer
`catch` of lines 185-191), assistant append, finish check (lines
155-160), tool execution and result append. -/
def runAux (model : ModelOracle) (env : ToolEnv) (abortSig : Nat → Bool)
    (opts : AgentLoopOptions) : Nat → RunState → Except JsError String × RunState
  | 0, s => (.ok "Investigation stopped: maximum turns reached.", s)
  | fuel + 1, s =>
    if abortSig s.turnCount then (.ok "Investigation cancelled by user.", s)
    else
      let s1 : RunState := { s with turnCount := s.turnCount + 1 }
      let s2 : RunState := { s1 with messages := enforceContextBudget opts s1.messages }
      match callModelWithRetry model opts s2 with
      | (.error e, s3) =>
        if isAbortError e then (.ok "Investigation cancelled by user.", s3)
        else (.error e, s3)
      | (.ok resp, s3) =>
        let s4 : RunState := { s3 with messages := appendAssistant opts resp s3.messages }
        if resp.toolCalls.length = 0 ∨ resp.finishReason = .stop then
          (.ok (resp.content.getD ""), s4)
        else
          match executeToolCalls env resp.toolCalls with
          | .error e =>
            if isAbortError e then (.ok "Investigation cancelled by user.", s4)
            else (.error e, s4)
          | .ok results =>
            runAux model env abortSig opts fuel
              { s4 with messages := appendToolResults opts results s4.messages }

/-- part_005 `AgentLoop.run`: seed `[system, user(prompt)]` and loop for at
most `maxTurns` turns.  The first component is the session outcome (`.ok`
is a normal return, `.error` a thrown fatal error); the second is the
final instrumented state. -/
def run (model : ModelOracle) (env : ToolEnv) (abortSig : Nat → Bool)
    (opts : AgentLoopOptions) (userPrompt : String) :
    Except JsError String × RunState :=
  runAux model env abortSig opts opts.maxTurns
    { messages := [ { role := .system, content := some opts.systemPrompt },
                    { role := .user, content := some userPrompt } ],
      turnCount := 0, modelCalls := 0, compactions := 0 }

/-- C2 (amended): when the first model call of a turn fails with a
context-length error, the loop compacts aggressively exactly once and
retries within the same turn; if the retry fails with any (non-abort)
error — a second context-length error included — that error propagates out
of `run` as fatal after exactly two model calls and one compaction; a
(non-abort) non-context-length error on the first call propagates
immediately, with no compaction and no retry.  (An abort error instead
yields the fixed cancellation result, see the counterexample.) -/
theorem run_context_retry_once_then_fatal (env : ToolEnv) (opts : AgentLoopOptions)
    (prompt : String) (k : Nat) (modelA modelB : ModelOracle) (e1 e2 e3 : JsError)
    (hmt : opts.maxTurns = k + 1)
    (hc1 : isContextLengthError e1 = true)
    (hA1 : modelA 1 = .error e1) (hA2 : modelA 2 = .error e2)
    (hnaA : isAbortError e2 = false)
    (hB1 : modelB 1 = .error e3)
    (hncB : isContextLengthError e3 = false) (hnaB : isAbortError e3 = false) :
    ((run modelA env (fun _ => false) opts prompt).1 = .error e2
      ∧ (run modelA env (fun _ => false) opts prompt).2.modelCalls = 2
      ∧ (run modelA env (fun _ => false) opts prompt).2.compactions = 1)
    ∧ ((run modelB env (fun _ => false) opts prompt).1 = .error e3
      ∧ (run modelB env (fun _ => false) opts prompt).2.modelCalls = 1
      ∧ (run modelB env (fun _ => false) opts prompt).2.compactions = 0) := by
  refine ⟨⟨?_, ?_, ?_⟩, ⟨?_, ?_, ?_⟩⟩ <;>
    (unfold run; rw [hmt]; simp [runAux, callModelWithRetry, hA1, hA2, hc1, hnaA,
      hB1, hncB, hnaB])

/-- A provider context-length error (first call of the turn). -/
def c2e1 : JsError := { message := some "context_length_exceeded" }

/-- An unrelated model error. -/
def c2e2 : JsError := { message := some "boom" }

/-- A model failing with a context-length error on call 1 and an unrelated
error on every later call. -/
def c2ModelA : ModelOracle := fun n => if n = 1 then .error c2e1 else .error c2e2

/-- A model failing with an unrelated error on every call. -/
def c2ModelB : ModelOracle := fun _ => .error c2e2

set_option maxRecDepth 20000 in
/-- Witness for the amended C2 theorem at concrete inputs. -/
theorem run_context_retry_once_then_fatal_witness :
    (run c2ModelA envEcho (fun _ => false) { maxTurns := 1 } "p").1 = .error c2e2
    ∧ (run c2ModelA envEcho (fun _ => false) { maxTurns := 1 } "p").2.modelCalls = 2
    ∧ (run c2ModelA envEcho (fun _ => false) { maxTurns := 1 } "p").2.compactions = 1 :=
  (run_context_retry_once_then_fatal envEcho { maxTurns := 1 } "p" 0 c2ModelA c2ModelB
    c2e1 c2e2 c2e2 rfl (by decide) rfl rfl (by decide) rfl (by decide) (by decide)).1

/-- An abort error: not a context-length error. -/
def c2AbortErr : JsError := { name := some "AbortError" }

/-- A model whose every call throws the abort error. -/
def c2ModelAbort : ModelOracle := fun _ => .error c2AbortErr

set_option maxRecDepth 20000 in
/-- C2 counterexample: a non-context-length error (an abort) does NOT
propagate out of `run` as a fatal error — the outer catch converts it into
the fixed cancellation result. -/
theorem run_abort_error_not_fatal :
    isContextLengthError c2AbortErr = false
    ∧ (run c2ModelAbort envEcho (fun _ => false) { maxTurns := 1 } "p").1
        = .ok "Investigation cancelled by user." := by
  exact ⟨by decide, by decide⟩

lemma enforceContextBudget_pair (opts : AgentLoopOptions) (m0 m1 : ChatMessage) :
    enforceContextBudget opts [m0, m1]
      = [shrinkMessage false opts 0 m0, shrinkMessage false opts 1 m1] := by
  have hs : shrinkMessages false opts [m0, m1]
      = [shrinkMessage false opts 0 m0, shrinkMessage false opts 1 m1] := rfl
  unfold enforceContextBudget
  rw [hs]
  simp

lemma appendAssistant_shape (opts : AgentLoopOptions) (resp : ChatCompletionResponse)
    (msgs : List ChatMessage) (h : resp.toolCalls ≠ []) :
    ∃ a : ChatMessage, appendAssistant opts resp msgs = msgs ++ [a]
      ∧ a.role = .assistant := by
  unfold appendAssistant
  by_cases hc : optTruthy resp.content
  · rw [if_pos hc]
    exact ⟨_, rfl, rfl⟩
  · rw [if_neg hc]
    have hlen : resp.toolCalls.length > 0 := List.length_pos.mpr h
    rw [if_pos hlen]
    exact ⟨_, rfl, rfl⟩

lemma appendToolResults_roles (opts : AgentLoopOptions) (results : List ToolResult)
    (msgs : List ChatMessage) :
    (appendToolResults opts results msgs).map (fun m => m.role)
      = msgs.map (fun m => m.role) ++ results.map (fun _ => Role.tool) := by
  simp only [appendToolResults, List.map_append, List.map_map]
  rfl

lemma appendToolResults_ids (opts : AgentLoopOptions) (results : List ToolResult)
    (msgs : List ChatMessage) :
    ((appendToolResults opts results msgs).drop msgs.length).map (fun m => m.tool_call_id)
      = results.map (fun r => some r.tool_call_id) := by
  unfold appendToolResults
  rw [List.drop_left]
  simp [List.map_map, Function.comp]

/-- C9: with `maxTurns = 1` and a model that returns tool calls (and does
not signal `stop`), `run` makes exactly one model call, appends the
assistant entry and one `tool` entry per tool call of that turn (each
correlated by id), and returns the fixed max-turns message as a normal,
non-error result. -/
theorem run_maxTurns_one_single_model_call (model : ModelOracle) (env : ToolEnv)
    (opts : AgentLoopOptions) (prompt : String) (resp : ChatCompletionResponse)
    (hmt : opts.maxTurns = 1)
    (hm : model 1 = .ok resp)
    (htc : resp.toolCalls ≠ [])
    (hfr : resp.finishReason ≠ .stop) :
    (run model env (fun _ => false) opts prompt).1
        = .ok "Investigation stopped: maximum turns reached."
    ∧ (run model env (fun _ => false) opts prompt).2.modelCalls = 1
    ∧ (run model env (fun _ => false) opts prompt).2.messages.map (fun m => m.role)
        = [.system, .user, .assistant] ++ resp.toolCalls.map (fun _ => Role.tool)
    ∧ ((run model env (fun _ => false) opts prompt).2.messages.drop 3).map
          (fun m => m.tool_call_id)
        = resp.toolCalls.map (fun c => some c.id) := by
  obtain ⟨results, hres, hids⟩ := executeToolCalls_ok env resp.toolCalls
  have hcond : ¬(resp.toolCalls.length = 0 ∨ resp.finishReason = .stop) := by
    intro hor
    rcases hor with h | h
    · exact htc (List.length_eq_zero.mp h)
    · exact hfr h
  have hcondL : ¬(resp.toolCalls = [] ∨ resp.finishReason = .stop) := by
    intro hor
    rcases hor with h | h
    · exact htc h
    · exact hfr h
  have hrun : run model env (fun _ => false) opts prompt
      = (.ok "Investigation stopped: maximum turns reached.",
          { messages := appendToolResults opts results
              (appendAssistant opts resp (enforceContextBudget opts
                [ { role := .system, content := some opts.systemPrompt },
                  { role := .user, content := some prompt } ])),
            turnCount := 1, modelCalls := 1, compactions := 0 }) := by
    unfold run
    rw [hmt]
    simp [runAux, callModelWithRetry, hm, hcond, hcondL, hres]
  rw [enforceContextBudget_pair] at hrun
  obtain ⟨a, hap, harole⟩ := appendAssistant_shape opts resp
    [shrinkMessage false opts 0 { role := .system, content := some opts.systemPrompt },
     shrinkMessage false opts 1 { role := .user, content := some prompt }] htc
  rw [hap] at hrun
  have hlen : results.length = resp.toolCalls.length := by
    have := congrArg List.length hids
    simpa using this
  refine ⟨by rw [hrun], by rw [hrun], ?_, ?_⟩
  · rw [hrun]
    show (appendToolResults opts results _).map (fun m => m.role) = _
    rw [appendToolResults_roles]
    simp [shrinkMessage_role, harole, List.map_const', hlen]
  · rw [hrun]
    show ((appendToolResults opts results _).drop 3).map (fun m => m.tool_call_id) = _
    have h3 : ([shrinkMessage false opts 0 { role := .system, content := some opts.systemPrompt },
        shrinkMessage false opts 1 { role := .user, content := some prompt } ] ++ [a]).length = 3 := by
      simp
    rw [← h3, appendToolResults_ids]
    rw [show results.map (fun r => some r.tool_call_id)
        = (results.map (fun r => r.tool_call_id)).map (fun x => some x) by
      simp [List.map_map, Function.comp]]
    rw [hids]
    simp [List.map_map, Function.comp]

/-- A response carrying one tool call and a non-stop finish reason. -/
def c9Resp : ChatCompletionResponse :=
  { content := none,
    toolCalls := [ { id := "c1",
                     function := { name := "ado_getBuildTimeline", arguments := "42" } } ],
    finishReason := .tool_calls }

/-- A model returning `c9Resp` on every call. -/
def c9Model : ModelOracle := fun _ => .ok c9Resp

/-- Witness for C9 at a concrete input. -/
theorem run_maxTurns_one_single_model_call_witness :
    (run c9Model envEcho (fun _ => false) { maxTurns := 1 } "investigate build 42").1
        = .ok "Investigation stopped: maximum turns reached."
    ∧ (run c9Model envEcho (fun _ => false) { maxTurns := 1 } "investigate build 42").2.modelCalls = 1
    ∧ (run c9Model envEcho (fun _ => false) { maxTurns := 1 } "investigate build 42").2.messages.map
          (fun m => m.role)
        = [.system, .user, .assistant] ++ c9Resp.toolCalls.map (fun _ => Role.tool)
    ∧ (((run c9Model envEcho (fun _ => false) { maxTurns := 1 } "investigate build 42").2.messages.drop 3).map
          (fun m => m.tool_call_id))
        = c9Resp.toolCalls.map (fun c => some c.id) :=
  run_maxTurns_one_single_model_call c9Model envEcho { maxTurns := 1 }
    "investigate build 42" c9Resp rfl rfl (by decide) (by decide)
